import Mathlib

/-!
# Verification of pgextkit's shared-memory coordination layer

A shallow embedding of the core data structures and operations of
`pgextkit` (shared registry over a Postgres `HTAB`, allocation-phase
coordinator, latch signal flags, per-database slot allocator), together
with theorems settling the specification's claims against them.

Machine-level effects (Rust panics and dereferences of null pointers)
are made explicit through a result type, so that statements about
"silent no-op", "never crashes" and "truncates rather than failing"
are expressible.
-/

namespace PgExtKit

/-- Outcome of running a fragment of the Rust code: a normal result,
a Rust panic (`unwrap` of a failed `Result`/`Option`), or a dereference
of a null/invalid pointer (undefined behavior, in practice a crash). -/
inductive RunResult (α : Type) where
  | ok : α → RunResult α
  | panicked : RunResult α
  | nullDeref : RunResult α
deriving DecidableEq, Repr

/-! ## Shared registry (`src/shmem.rs`)

Keys are `heapless::String<96>` values, i.e. byte strings of at most 96
bytes.  We model strings as lists of bytes (`List Nat`), keeping only
their byte content; `&str` inputs of any length are allowed, and the
conversion into the bounded string is modelled explicitly.

The Postgres `HTAB` created by `ShmemInitHash("pgextkit_shared_dictionary",
MAX_ATTACHMENTS, MAX_ATTACHMENTS, ...)` is modelled as an association
list of `(key, value-pointer)` entries with capacity `MAX_ATTACHMENTS`:
`hash_search_with_hash_value` finds the entry whose key compares equal
(the table's `compare` callback is string equality), `HASH_ENTER_NULL`
creates a fresh entry while capacity remains and yields the null pointer
once allocation fails, `HASH_FIND` yields the null pointer when the key
is absent.  Stored values are the raw pointers (`*mut T`) written into
`Entry::value`, modelled as `Nat` addresses. -/

/-- Byte strings. -/
abbrev Bytes := List Nat

/-- `heapless::String::<96>::from(&str)`: implemented as
`String::new()` + `push_str(s).unwrap()`.  `push_str` fails (and the
`unwrap` panics) when the input is longer than the 96-byte capacity;
otherwise the string is copied unchanged.  `none` models the panic. -/
def heaplessFrom96 (s : Bytes) : Option Bytes :=
  if s.length ≤ 96 then some s else none

/-- `MAX_ATTACHMENTS`: fixed capacity of the shared dictionary. -/
def MAX_ATTACHMENTS : Nat := 8192

/-- First entry of the association list whose key equals `k`
(the `HTAB`'s `compare` callback is equality of the two strings). -/
def lookupEntry (k : Bytes) : List (Bytes × Nat) → Option Nat
  | [] => none
  | (k', v) :: rest => if k' = k then some v else lookupEntry k rest

/-- The shared dictionary: the entries of the shared-memory `HTAB`,
in insertion order.  Each entry stores the key and the `value` pointer. -/
structure SharedDictionary where
  entries : List (Bytes × Nat)
deriving DecidableEq, Repr

/-- `SharedDictionary::insert(name, value)`:
converts `name` into a `heapless::String<96>` (panics when overlong),
performs `hash_search_with_hash_value(..., HASH_ENTER_NULL, &found)`,
and, when `found` is false, writes the value pointer through the
returned entry pointer.  When the table is at capacity,
`HASH_ENTER_NULL` returns the null pointer with `found = false`, and
the write `(*entry).value = ...` goes through null. -/
def SharedDictionary.insert (d : SharedDictionary) (name : Bytes) (ptr : Nat) :
    RunResult SharedDictionary :=
  match heaplessFrom96 name with
  | none => .panicked
  | some key =>
    match lookupEntry key d.entries with
    | some _ => .ok d
    | none =>
      if d.entries.length < MAX_ATTACHMENTS then
        .ok ⟨d.entries ++ [(key, ptr)]⟩
      else
        .nullDeref

/-- `SharedDictionary::internal_get(name)`:
converts `name` (panics when overlong), performs
`hash_search_with_hash_value(..., HASH_FIND, &found)` and returns
`(found, (*entry).value)`.  The read of `(*entry).value` is performed
unconditionally; when the key is absent the entry pointer is null and
the read goes through null. -/
def SharedDictionary.internal_get (d : SharedDictionary) (name : Bytes) :
    RunResult (Bool × Nat) :=
  match heaplessFrom96 name with
  | none => .panicked
  | some key =>
    match lookupEntry key d.entries with
    | some v => .ok (true, v)
    | none => .nullDeref

/-- `SharedDictionary::get(name)`: `Some` of the stored pointer when
`internal_get` reports `found`, `None` otherwise. -/
def SharedDictionary.get (d : SharedDictionary) (name : Bytes) :
    RunResult (Option Nat) :=
  match d.internal_get name with
  | .ok (true, v) => .ok (some v)
  | .ok (false, _) => .ok none
  | .panicked => .panicked
  | .nullDeref => .nullDeref

/-- `SharedDictionary::get_mut(name)`: same lookup as `get`, returning
the pointer as an exclusive reference. -/
def SharedDictionary.get_mut (d : SharedDictionary) (name : Bytes) :
    RunResult (Option Nat) :=
  match d.internal_get name with
  | .ok (true, v) => .ok (some v)
  | .ok (false, _) => .ok none
  | .panicked => .panicked
  | .nullDeref => .nullDeref

/-- The dictionary as created by `SharedDictionary::default()` on a
fresh segment: no entries. -/
def emptyDict : SharedDictionary := ⟨[]⟩

/-- A heap of typed pointees: the objects living inside the shared
segment, addressed by `Nat` pointers.  `insert` stores
`value.get_mut() as *mut _`, i.e. the address of an object that lives
in the segment; dereferencing the pointer returned by `get` reads this
heap.  Dictionary operations never modify the heap. -/
def derefHeap {V : Type} (heap : Nat → Option V) (p : Nat) : Option V := heap p

/-! Basic lookup lemmas. -/

theorem lookupEntry_append_self (k : Bytes) (p : Nat) :
    ∀ l : List (Bytes × Nat), lookupEntry k l = none →
      lookupEntry k (l ++ [(k, p)]) = some p := by
  intro l
  induction l with
  | nil => intro _; simp [lookupEntry]
  | cons e rest ih =>
    intro h
    simp only [lookupEntry] at h ⊢
    by_cases hk : e.1 = k
    · rw [if_pos hk] at h; exact absurd h (by simp)
    · cases e with
      | mk k' v =>
        simp only at hk
        rw [if_neg hk] at h ⊢
        exact ih h

theorem lookupEntry_eq_none_of_forall (k : Bytes) :
    ∀ l : List (Bytes × Nat), (∀ e ∈ l, e.1 ≠ k) → lookupEntry k l = none := by
  intro l
  induction l with
  | nil => intro _; rfl
  | cons e rest ih =>
    intro h
    cases e with
    | mk k' v =>
      simp only [lookupEntry]
      rw [if_neg (h (k', v) (List.mem_cons_self _ _))]
      exact ih fun e he => h e (List.mem_cons_of_mem _ he)

/-- Inserting a fresh key below capacity appends the entry and makes a
subsequent lookup find the stored pointer. -/
theorem insert_fresh_ok (d : SharedDictionary) (key : Bytes) (ptr : Nat)
    (hk : key.length ≤ 96)
    (hfresh : lookupEntry key d.entries = none)
    (hcap : d.entries.length < MAX_ATTACHMENTS) :
    d.insert key ptr = .ok ⟨d.entries ++ [(key, ptr)]⟩ := by
  simp only [SharedDictionary.insert, heaplessFrom96, if_pos hk, hfresh, if_pos hcap]

/-- A present key makes `get` return the stored pointer. -/
theorem get_of_lookup (d : SharedDictionary) (key : Bytes) (ptr : Nat)
    (hk : key.length ≤ 96)
    (hfound : lookupEntry key d.entries = some ptr) :
    d.get key = .ok (some ptr) := by
  simp only [SharedDictionary.get, SharedDictionary.internal_get, heaplessFrom96,
    if_pos hk, hfound]

/-- C1: with fewer than 8192 entries present and a key within the 96-byte
bound, after `insert(key, value)` stores the value's pointer (the key was
not yet present, so the pointer is written), a subsequent `get(key)`
returns `Some` reference whose pointee equals the inserted value. -/
theorem C1_insert_get_roundtrip {V : Type} (d : SharedDictionary)
    (heap : Nat → Option V) (key : Bytes) (ptr : Nat) (v : V)
    (hk : key.length ≤ 96)
    (hcap : d.entries.length < MAX_ATTACHMENTS)
    (hfresh : lookupEntry key d.entries = none)
    (hpointee : derefHeap heap ptr = some v) :
    ∃ (d' : SharedDictionary) (p : Nat),
      d.insert key ptr = .ok d' ∧
      d'.get key = .ok (some p) ∧
      derefHeap heap p = some v := by
  refine ⟨⟨d.entries ++ [(key, ptr)]⟩, ptr, insert_fresh_ok d key ptr hk hfresh hcap, ?_, hpointee⟩
  exact get_of_lookup _ key ptr hk (lookupEntry_append_self key ptr d.entries hfresh)

/-- Witness for C1 at a concrete input: an empty dictionary, the key
`[65]`, a pointer `5` whose pointee is `42`. -/
theorem C1_insert_get_roundtrip_witness :
    (([65] : Bytes).length ≤ 96 ∧
     emptyDict.entries.length < MAX_ATTACHMENTS ∧
     lookupEntry [65] emptyDict.entries = none ∧
     derefHeap (fun n => if n = 5 then some 42 else none) 5 = some 42) ∧
    (∃ (d' : SharedDictionary) (p : Nat),
      emptyDict.insert [65] 5 = .ok d' ∧
      d'.get [65] = .ok (some p) ∧
      derefHeap (fun n => if n = 5 then some 42 else none) p = some 42) :=
  ⟨⟨by decide, by decide, by decide, by decide⟩,
    C1_insert_get_roundtrip emptyDict _ [65] 5 42
      (by decide) (by decide) (by decide) (by decide)⟩

/-- C4: inserting the same key twice leaves the first insertion's pointer
unchanged: the second insert finds the key and skips the write, and
`get` still yields the pointer stored by the first insert. -/
theorem C4_insert_twice_first_wins (d : SharedDictionary) (key : Bytes)
    (p1 p2 : Nat)
    (hk : key.length ≤ 96)
    (hcap : d.entries.length < MAX_ATTACHMENTS)
    (hfresh : lookupEntry key d.entries = none) :
    ∃ d1 : SharedDictionary,
      d.insert key p1 = .ok d1 ∧
      d1.insert key p2 = .ok d1 ∧
      d1.get key = .ok (some p1) := by
  refine ⟨⟨d.entries ++ [(key, p1)]⟩, insert_fresh_ok d key p1 hk hfresh hcap, ?_, ?_⟩
  · simp only [SharedDictionary.insert, heaplessFrom96, if_pos hk,
      lookupEntry_append_self key p1 d.entries hfresh]
  · exact get_of_lookup _ key p1 hk (lookupEntry_append_self key p1 d.entries hfresh)

/-- Witness for C4 at a concrete input. -/
theorem C4_insert_twice_first_wins_witness :
    (([65] : Bytes).length ≤ 96 ∧
     emptyDict.entries.length < MAX_ATTACHMENTS ∧
     lookupEntry [65] emptyDict.entries = none) ∧
    (∃ d1 : SharedDictionary,
      emptyDict.insert [65] 5 = .ok d1 ∧
      d1.insert [65] 7 = .ok d1 ∧
      d1.get [65] = .ok (some 5)) :=
  ⟨⟨by decide, by decide, by decide⟩,
    C4_insert_twice_first_wins emptyDict [65] 5 7 (by decide) (by decide) (by decide)⟩

/-- C3: looking up a name that was never inserted.  The code reads
`(*entry).value` before checking `found`; on the not-found path the
entry pointer returned by `hash_search` with `HASH_FIND` is null, so
both `get` and `get_mut` dereference null instead of returning `None`. -/
theorem C3_get_absent_null_deref :
    emptyDict.get [65] = .nullDeref ∧ emptyDict.get_mut [65] = .nullDeref := by
  constructor <;> rfl

/-- C6 counterexample: inserting a 97-byte key panics (the
`heapless::String<96>` conversion unwraps a failed `push_str`) instead
of truncating the key and completing. -/
theorem C6_overlong_key_panics :
    emptyDict.insert (List.replicate 97 65) 7 = .panicked := by
  simp [SharedDictionary.insert, heaplessFrom96]

/-- C6 amended: for every key longer than the 96-byte bound, `insert`
panics — it never truncates and never completes. -/
theorem C6_overlong_key_always_panics (d : SharedDictionary) (key : Bytes)
    (ptr : Nat) (h : 96 < key.length) :
    d.insert key ptr = .panicked := by
  have hnone : heaplessFrom96 key = none := by
    simp only [heaplessFrom96, ite_eq_right_iff]
    omega
  simp only [SharedDictionary.insert, hnone]

/-- Witness for the amended C6 at a concrete input. -/
theorem C6_overlong_key_always_panics_witness :
    96 < (List.replicate 97 65 : Bytes).length ∧
    emptyDict.insert (List.replicate 97 65) 7 = .panicked :=
  ⟨by decide, C6_overlong_key_always_panics emptyDict _ 7 (by decide)⟩

/-! ### C5: insertion at capacity -/

/-- A dictionary holding 8192 distinct two-byte keys. -/
def fullDict : SharedDictionary :=
  ⟨(List.range MAX_ATTACHMENTS).map (fun i => ([i % 256, i / 256], i))⟩

theorem fullDict_length : fullDict.entries.length = MAX_ATTACHMENTS := by
  simp [fullDict]

theorem fullDict_lookup_fresh : lookupEntry [1, 2, 3] fullDict.entries = none := by
  apply lookupEntry_eq_none_of_forall
  intro e he
  simp only [fullDict] at he
  obtain ⟨i, _, rfl⟩ := List.mem_map.mp he
  simp

/-- C5: at capacity (`8192` entries), inserting a fresh key makes
`hash_search(..., HASH_ENTER_NULL, ...)` return the null pointer with
`found = false`, and `insert` then writes the value pointer through
null — a crash, not a silent no-op. -/
theorem C5_insert_at_capacity_null_deref :
    fullDict.insert [1, 2, 3] 7 = .nullDeref := by
  have h96 : heaplessFrom96 [1, 2, 3] = some [1, 2, 3] := by decide
  simp only [SharedDictionary.insert, h96, fullDict_lookup_fresh, fullDict_length]
  rw [if_neg (lt_irrefl _)]

/-! ## Latch signal flags (`src/latch.rs`)

`SignalWakeFlags` is a `bitflags` type with `SIGHUP = 0x1` and
`SIGTERM = 0x2`.  Two process-wide statics hold the signal state:
`OWNED_LATCHES: Vec<Weak<LatchPtr>>` (weak references registered by
`attach_signal_handlers`) and `SIGNALS: BTreeMap<SignalWakeFlags,
AtomicBool>` (one entry for `SIGHUP`, one for `SIGTERM`).  Both are
`OnceCell`s initialized by `OwnedLatch::new`; the states modelled here
are those of a process in which at least one `OwnedLatch` has been
created, so both cells are initialized.

`pqsignal` registers `OwnedLatch::signal_handler` for the OS signals
`SIGHUP` (number 1) and `SIGTERM` (number 15); the handler receives the
OS signal number. -/

/-- `SignalWakeFlags::SIGHUP` (bit `0x1`). -/
def SIGHUP_FLAG : Nat := 1

/-- `SignalWakeFlags::SIGTERM` (bit `0x2`). -/
def SIGTERM_FLAG : Nat := 2

/-- The OS signal number `SIGHUP`. -/
def OS_SIGHUP : Nat := 1

/-- The OS signal number `SIGTERM`. -/
def OS_SIGTERM : Nat := 15

/-- `SignalWakeFlags::from_bits(bits)`: `Some` exactly when every set
bit is a defined flag bit (`0x1 | 0x2 = 0x3`). -/
def signalWakeFlags_fromBits (bits : Nat) : Option Nat :=
  if bits &&& 3 = bits then some bits else none

/-- Process-wide latch/signal state of a process in which at least one
`OwnedLatch` exists.  `registered` models `OWNED_LATCHES` in push
order: `some id` is a weak reference whose `upgrade()` succeeds
(yielding the latch with that id), `none` one whose owner was dropped.
`sighup`/`sigterm` are the two `AtomicBool`s of `SIGNALS`.  `wakeBit`
is each latch's wake bit (`SetLatch`/`ResetLatch`), by latch id. -/
structure LatchProcess where
  registered : List (Option Nat)
  sighup : Bool
  sigterm : Bool
  wakeBit : Nat → Bool

/-- `SIGNALS.get(&wake)`: the `BTreeMap` holds exactly the keys
`SIGHUP` (`0x1`) and `SIGTERM` (`0x2`); any other flag value finds
nothing. -/
def signalsGet (st : LatchProcess) (flag : Nat) : Option Bool :=
  if flag = SIGHUP_FLAG then some st.sighup
  else if flag = SIGTERM_FLAG then some st.sigterm
  else none

/-- `flag.store(true, SeqCst)` on the `AtomicBool` selected by `flag`. -/
def storeFlag (st : LatchProcess) (flag : Nat) : LatchProcess :=
  if flag = SIGHUP_FLAG then { st with sighup := true }
  else if flag = SIGTERM_FLAG then { st with sigterm := true }
  else st

/-- `SetLatch` on the latch with the given id. -/
def setLatch (st : LatchProcess) (id : Nat) : LatchProcess :=
  { st with wakeBit := fun j => if j = id then true else st.wakeBit j }

/-- The loop of `OwnedLatch::signal_handler` over `OWNED_LATCHES`: for
each weak reference whose `upgrade()` succeeds, it evaluates
`signals.get(&SignalWakeFlags::from_bits(signal).unwrap())` — panicking
when `from_bits` returns `None` — stores `true` into the flag when the
map lookup succeeds, and calls `SetLatch` on the latch.  Dead weak
references are skipped entirely. -/
def handlerLoop (signal : Nat) : List (Option Nat) → LatchProcess → RunResult LatchProcess
  | [], st => .ok st
  | none :: rest, st => handlerLoop signal rest st
  | some id :: rest, st =>
    match signalWakeFlags_fromBits signal with
    | none => .panicked
    | some flags =>
      let st1 := match signalsGet st flags with
        | some _ => storeFlag st flags
        | none => st
      handlerLoop signal rest (setLatch st1 id)

/-- `OwnedLatch::signal_handler(signal)`: first, when
`from_bits(signal).unwrap_or(empty)` contains `SIGHUP`, it reloads the
configuration file (no effect on the modelled state); then it runs the
loop over the registered latches. -/
def signal_handler (st : LatchProcess) (signal : Nat) : RunResult LatchProcess :=
  handlerLoop signal st.registered st

/-- `OwnedLatch::signal_received(&self, wake)`: looks `wake` up in the
process-global `SIGNALS` map and, when present, `swap(false, SeqCst)`s
the flag — returning its previous value and clearing it.  The receiver
latch (`selfId`) is not consulted: the state is process-global. -/
def signal_received (_selfId : Nat) (st : LatchProcess) (wake : Nat) :
    Bool × LatchProcess :=
  match signalsGet st wake with
  | some prev =>
    (prev,
      if wake = SIGHUP_FLAG then { st with sighup := false }
      else if wake = SIGTERM_FLAG then { st with sigterm := false }
      else st)
  | none => (false, st)

/-- A concrete process state: one live registered latch (id 0), no
flag pending, no wake bit set. -/
def oneLatchState : LatchProcess :=
  ⟨[some 0], false, false, fun _ => false⟩

/-- C7: delivering the OS signal `SIGTERM` (number 15) to the handler
with one live registered latch panics: `from_bits(15)` is `None`
(15 has bits outside `0x3`) and the handler `unwrap`s it, so the
`SIGTERM` flag is never marked and `signal_received(SIGTERM)` can never
observe the delivery. -/
theorem C7_sigterm_handler_panics :
    signal_handler oneLatchState OS_SIGTERM = .panicked := rfl

/-! The `handlerLoop` run for `SIGHUP` (OS number 1 = flag bit `0x1`)
succeeds and marks the shared `sighup` flag whenever some live latch is
registered. -/

theorem handlerLoop_sighup_ok :
    ∀ (l : List (Option Nat)) (st : LatchProcess),
      ∃ st' : LatchProcess,
        handlerLoop OS_SIGHUP l st = .ok st' ∧
        st'.sighup = (st.sighup || l.any Option.isSome) ∧
        st'.sigterm = st.sigterm := by
  intro l
  induction l with
  | nil => intro st; exact ⟨st, rfl, by simp, rfl⟩
  | cons w rest ih =>
    intro st
    cases w with
    | none =>
      obtain ⟨st', h1, h2, h3⟩ := ih st
      exact ⟨st', h1, by simpa using h2, h3⟩
    | some id =>
      obtain ⟨st', h1, h2, h3⟩ := ih (setLatch (storeFlag st SIGHUP_FLAG) id)
      refine ⟨st', ?_, ?_, ?_⟩
      · simpa [handlerLoop, signalWakeFlags_fromBits, OS_SIGHUP, signalsGet,
          SIGHUP_FLAG] using h1
      · rw [h2]; simp [setLatch, storeFlag, SIGHUP_FLAG]
      · rw [h3]; simp [setLatch, storeFlag, SIGHUP_FLAG]

/-- C10: the named signal flags are process-global, shared by every
owned latch.  After a `SIGHUP` delivery reaches a process with at least
one live registered latch, `signal_received(SIGHUP)` called on any one
latch `a` returns `true` and clears the single shared flag, so a
subsequent `signal_received(SIGHUP)` on a different latch `b` of the
same process returns `false`. -/
theorem C10_signal_flags_process_global (st : LatchProcess) (a b : Nat)
    (hlive : st.registered.any Option.isSome = true) (_hab : a ≠ b) :
    ∃ st1 : LatchProcess,
      signal_handler st OS_SIGHUP = .ok st1 ∧
      (signal_received a st1 SIGHUP_FLAG).1 = true ∧
      (signal_received b (signal_received a st1 SIGHUP_FLAG).2 SIGHUP_FLAG).1 = false := by
  obtain ⟨st1, h1, h2, _⟩ := handlerLoop_sighup_ok st.registered st
  rw [hlive, Bool.or_true] at h2
  refine ⟨st1, h1, ?_, ?_⟩
  · simp [signal_received, signalsGet, SIGHUP_FLAG, h2]
  · simp [signal_received, signalsGet, SIGHUP_FLAG, h2]

/-- Witness for C10 at a concrete input: two live latches (ids 0, 1),
`signal_received` first on latch 0, then on latch 1. -/
theorem C10_signal_flags_process_global_witness :
    ((⟨[some 0, some 1], false, false, fun _ => false⟩ :
        LatchProcess).registered.any Option.isSome = true ∧ (0 : Nat) ≠ 1) ∧
    (∃ st1 : LatchProcess,
      signal_handler ⟨[some 0, some 1], false, false, fun _ => false⟩ OS_SIGHUP = .ok st1 ∧
      (signal_received 0 st1 SIGHUP_FLAG).1 = true ∧
      (signal_received 1 (signal_received 0 st1 SIGHUP_FLAG).2 SIGHUP_FLAG).1 = false) :=
  ⟨⟨by decide, by decide⟩,
    C10_signal_flags_process_global ⟨[some 0, some 1], false, false, fun _ => false⟩
      0 1 (by decide) (by decide)⟩

/-! ## Latch ownership (`src/latch.rs`, `SharedLatch::own`) -/

/-- A shared latch as laid out in shared memory: `owner_pid = 0` means
unowned. -/
structure SharedLatchState where
  ownerPid : Nat
deriving DecidableEq, Repr

/-- `SharedLatch::own(&mut self)` of the calling process `pid`: it
calls the host primitive `OwnLatch` — which aborts the process
(`elog(PANIC, "latch already owned")`) when the latch is already owned,
and otherwise records the caller as owner — and then unconditionally
returns `Some(OwnedLatch::new(..))`.  The result carries the updated
latch and the returned option (`some handleId`, the owned handle). -/
def SharedLatch.own (l : SharedLatchState) (pid : Nat) :
    RunResult (SharedLatchState × Option Nat) :=
  if l.ownerPid ≠ 0 then .panicked
  else .ok (⟨pid⟩, some pid)

/-- C8 counterexample: there is no input at all — no latch state and no
calling process — on which `own()` returns `None`.  Misuse aborts inside
the host's `OwnLatch`; whenever `own()` returns, it returns `Some`. -/
theorem C8_own_never_none :
    ¬ ∃ (l : SharedLatchState) (pid : Nat) (st : SharedLatchState),
        SharedLatch.own l pid = .ok (st, none) := by
  rintro ⟨l, pid, st, h⟩
  by_cases h0 : l.ownerPid ≠ 0
  · rw [SharedLatch.own, if_pos h0] at h
    exact RunResult.noConfusion h
  · rw [SharedLatch.own, if_neg h0] at h
    have := (RunResult.ok.injEq _ _).mp h
    exact Option.noConfusion (congrArg Prod.snd this)

/-- C8 amended: `own()` never returns `None`: either the host's
`OwnLatch` aborts the process (latch already owned), or `own()` returns
`Some` owned wait handle. -/
theorem C8_own_panics_or_some (l : SharedLatchState) (pid : Nat) :
    SharedLatch.own l pid = .panicked ∨
    ∃ st : SharedLatchState, SharedLatch.own l pid = .ok (st, some pid) := by
  by_cases h0 : l.ownerPid ≠ 0
  · exact Or.inl (by rw [SharedLatch.own, if_pos h0])
  · exact Or.inr ⟨⟨pid⟩, by rw [SharedLatch.own, if_neg h0]⟩

/-! ## Allocation-phase coordinator (`src/ext/mod.rs`)

`ALLOC_CALLBACKS: Vec<(callback, size, payload)>` is the process-wide
pending list.  `static_handle::allocate_shmem` appends a reservation to
it (and reports the size to `RequestAddinShmemSpace`).  The segment
mapping hook `__pgx_private_shmem_hook` first carves the registry and
the main `pgextkit_shmem` region out of the segment, then iterates
`ALLOC_CALLBACKS.drain(..)` — which empties the list — and for each
pending reservation calls `ShmemInitStruct` under a freshly generated
(UUID) name, obtaining a fresh sub-region of the requested size
disjoint from all previous carve-outs, and invokes the reservation's
callback with that region's pointer and the reservation's payload.

`ShmemInitStruct` with a fresh name is modelled as a bump carve: the
host hands out consecutive disjoint sub-regions of the segment,
starting at `base`, the offset at which the host's shared-memory
allocator stands after the registry and the main-region carves. -/

/-- An allocation request pending in `ALLOC_CALLBACKS`: the callback's
identity, the requested size in bytes, and the opaque payload pointer. -/
structure Reservation where
  cb : Nat
  size : Nat
  payload : Nat
deriving DecidableEq, Repr

/-- The coordinator's process-wide state: the pending list. -/
structure Coordinator where
  pending : List Reservation
deriving DecidableEq, Repr

/-- `static_handle::allocate_shmem`: pushes the reservation onto the
end of `ALLOC_CALLBACKS`. -/
def allocate_shmem (c : Coordinator) (r : Reservation) : Coordinator :=
  ⟨c.pending ++ [r]⟩

/-- One callback invocation performed by the hook: the callback, the
base address and size of its carved sub-region, and the payload passed
back to it. -/
structure Invocation where
  cb : Nat
  region : Nat
  size : Nat
  payload : Nat
deriving DecidableEq, Repr

/-- The hook's drain loop: carve a fresh sub-region of the requested
size for each pending reservation, in list (FIFO) order, and invoke its
callback with the region's pointer and its payload. -/
def carveLoop (base : Nat) : List Reservation → List Invocation
  | [] => []
  | r :: rest => ⟨r.cb, base, r.size, r.payload⟩ :: carveLoop (base + r.size) rest

/-- `__pgx_private_shmem_hook`, restricted to the reservation-replay
part: produces the sequence of callback invocations and the coordinator
state afterwards (`drain(..)` leaves the pending list empty). -/
def shmem_hook (c : Coordinator) (base : Nat) : List Invocation × Coordinator :=
  (carveLoop base c.pending, ⟨[]⟩)

theorem foldl_allocate_shmem (rs : List Reservation) :
    (rs.foldl allocate_shmem ⟨[]⟩).pending = rs := by
  suffices h : ∀ (rs : List Reservation) (c : Coordinator),
      (rs.foldl allocate_shmem c).pending = c.pending ++ rs by
    simpa using h rs ⟨[]⟩
  intro rs
  induction rs with
  | nil => intro c; simp
  | cons r rest ih =>
    intro c
    simp [List.foldl_cons, ih, allocate_shmem]

theorem carveLoop_cbs (base : Nat) (l : List Reservation) :
    (carveLoop base l).map (fun i => (i.cb, i.size, i.payload)) =
      l.map (fun r => (r.cb, r.size, r.payload)) := by
  induction l generalizing base with
  | nil => rfl
  | cons r rest ih => simp [carveLoop, ih]

theorem carveLoop_region_ge (l : List Reservation) :
    ∀ (base j : Nat) (inv : Invocation),
      (carveLoop base l)[j]? = some inv → base ≤ inv.region := by
  induction l with
  | nil => intro base j inv h; simp [carveLoop] at h
  | cons r rest ih =>
    intro base j inv h
    cases j with
    | zero =>
      simp only [carveLoop, List.getElem?_cons_zero, Option.some.injEq] at h
      subst h
      exact Nat.le_refl _
    | succ j =>
      simp only [carveLoop, List.getElem?_cons_succ] at h
      have := ih (base + r.size) j inv h
      omega

theorem carveLoop_disjoint (l : List Reservation) :
    ∀ (base i j : Nat) (invi invj : Invocation), i < j →
      (carveLoop base l)[i]? = some invi → (carveLoop base l)[j]? = some invj →
      invi.region + invi.size ≤ invj.region := by
  induction l with
  | nil => intro base i j invi invj _ h; simp [carveLoop] at h
  | cons r rest ih =>
    intro base i j invi invj hij hi hj
    cases i with
    | zero =>
      simp only [carveLoop, List.getElem?_cons_zero, Option.some.injEq] at hi
      obtain ⟨j', rfl⟩ := Nat.exists_eq_add_of_lt hij
      simp only [carveLoop, Nat.zero_add, List.getElem?_cons_succ] at hj
      have := carveLoop_region_ge rest (base + r.size) j' invj hj
      subst hi
      simpa using this
    | succ i =>
      cases j with
      | zero => omega
      | succ j =>
        simp only [carveLoop, List.getElem?_cons_succ] at hi hj
        exact ih (base + r.size) i j invi invj (by omega) hi hj

/-- C2: for every sequence of preload-phase reservations pushed via the
static handle's `allocate_shmem`, when the segment-mapping hook runs:
the invocation trace replays exactly the submitted reservations —
each callback invoked exactly once with its own size and payload, in
FIFO submission order —, each invocation receives a pointer to its own
carved sub-region (the carve-outs are pairwise disjoint: an earlier
region ends no later than a later region begins), and the pending list
is left empty. -/
theorem C2_hook_replays_fifo (rs : List Reservation) (base : Nat) :
    ((shmem_hook (rs.foldl allocate_shmem ⟨[]⟩) base).1.map
        (fun i => (i.cb, i.size, i.payload)) =
      rs.map (fun r => (r.cb, r.size, r.payload))) ∧
    (∀ (i j : Nat) (invi invj : Invocation), i < j →
      (shmem_hook (rs.foldl allocate_shmem ⟨[]⟩) base).1[i]? = some invi →
      (shmem_hook (rs.foldl allocate_shmem ⟨[]⟩) base).1[j]? = some invj →
      invi.region + invi.size ≤ invj.region) ∧
    (shmem_hook (rs.foldl allocate_shmem ⟨[]⟩) base).2.pending = [] := by
  refine ⟨?_, ?_, rfl⟩
  · simp only [shmem_hook, foldl_allocate_shmem]
    exact carveLoop_cbs base rs
  · intro i j invi invj hij hi hj
    simp only [shmem_hook, foldl_allocate_shmem] at hi hj
    exact carveLoop_disjoint rs base i j invi invj hij hi hj

/-! ## Per-database slot allocator (`src/db.rs`)

`DatabaseLocal<T, N>` holds `inner: Vec<T, N>` — prefilled by
`DatabaseLocal::new` with `N` factory-made instances —, a
`counter: usize` and `mapping: FnvIndexMap<Oid, usize, N>`.  Slot
references handed out by `for_my_database` are modelled by the index of
the slot inside `inner`; database identifiers (`Oid`) are `Nat`s.  The
`FnvIndexMap` is modelled as an association list of capacity `N`
(`entry(..)` is vacant exactly when the key is absent; inserting into a
full map fails, and the failure is discarded by `let _ = ...`).
`inner.get_mut(i).unwrap()` panics exactly when `i ≥ N`. -/

/-- First slot recorded for `dbid` in the mapping. -/
def lookupSlot (dbid : Nat) : List (Nat × Nat) → Option Nat
  | [] => none
  | (k, v) :: rest => if k = dbid then some v else lookupSlot dbid rest

/-- `DatabaseLocal<T, N>`: the claimed-slot counter and the
database-id → slot-index mapping (`inner`'s content does not affect
which slot a call returns, only the value living in it). -/
structure DatabaseLocal (N : Nat) where
  counter : Nat
  mapping : List (Nat × Nat)
deriving DecidableEq, Repr

/-- `DatabaseLocal::new(f)`: `inner` is prefilled with `N` factory
instances, the counter starts at 0 and the mapping is empty. -/
def DatabaseLocal.new (N : Nat) : DatabaseLocal N := ⟨0, []⟩

/-- `DatabaseLocal::for_my_database` for current database id `dbid`:
on a vacant mapping entry, inserts `counter` under `dbid` (silently
failing when the map is full), takes `inner[counter]` (panicking when
`counter ≥ N`) and increments the counter; on an occupied entry,
returns `inner[slot]` for the recorded slot (panicking when
`slot ≥ N`). -/
def DatabaseLocal.for_my_database {N : Nat} (d : DatabaseLocal N) (dbid : Nat) :
    RunResult (Nat × DatabaseLocal N) :=
  match lookupSlot dbid d.mapping with
  | some slot =>
    if slot < N then .ok (slot, d) else .panicked
  | none =>
    let mapping' :=
      if d.mapping.length < N then d.mapping ++ [(dbid, d.counter)] else d.mapping
    if d.counter < N then .ok (d.counter, ⟨d.counter + 1, mapping'⟩) else .panicked

/-- Running `for_my_database` over a sequence of current-database ids,
collecting the returned slot indices. -/
def runDBL (N : Nat) : List Nat → DatabaseLocal N → RunResult (List Nat × DatabaseLocal N)
  | [], d => .ok ([], d)
  | dbid :: rest, d =>
    match d.for_my_database dbid with
    | .ok (slot, d') =>
      match runDBL N rest d' with
      | .ok (slots, df) => .ok (slot :: slots, df)
      | .panicked => .panicked
      | .nullDeref => .nullDeref
    | .panicked => .panicked
    | .nullDeref => .nullDeref

/-- The distinct identifiers of `l`, in order of first occurrence,
continuing from the already-seen list `acc`. -/
def seenFrom (acc : List Nat) : List Nat → List Nat
  | [] => acc
  | a :: l => seenFrom (if a ∈ acc then acc else acc ++ [a]) l

/-- The distinct identifiers of `l`, in order of first occurrence. -/
def seen (l : List Nat) : List Nat := seenFrom [] l

/-- Index of the first occurrence of `a` in a list (its length when
absent). -/
def firstIdx (a : Nat) : List Nat → Nat
  | [] => 0
  | b :: l => if b = a then 0 else firstIdx a l + 1

/-- The mapping that records slot `k + i` for the `i`-th element of a
seen-list. -/
def mapFrom (k : Nat) : List Nat → List (Nat × Nat)
  | [] => []
  | a :: l => (a, k) :: mapFrom (k + 1) l

theorem mapFrom_length (k : Nat) (l : List Nat) : (mapFrom k l).length = l.length := by
  induction l generalizing k with
  | nil => rfl
  | cons a l ih => simp [mapFrom, ih]

theorem mapFrom_append (k : Nat) (l : List Nat) (a : Nat) :
    mapFrom k (l ++ [a]) = mapFrom k l ++ [(a, k + l.length)] := by
  induction l generalizing k with
  | nil => simp [mapFrom]
  | cons b l ih => simp [mapFrom, ih]; omega

theorem lookupSlot_mapFrom (a : Nat) :
    ∀ (acc : List Nat) (k : Nat),
      lookupSlot a (mapFrom k acc) =
        if a ∈ acc then some (k + firstIdx a acc) else none := by
  intro acc
  induction acc with
  | nil => intro k; rfl
  | cons b acc ih =>
    intro k
    by_cases hb : b = a
    · subst hb
      simp [mapFrom, lookupSlot, firstIdx]
    · simp only [mapFrom, lookupSlot, if_neg hb, ih (k + 1), firstIdx,
        List.mem_cons]
      by_cases hmem : a ∈ acc
      · simp [hmem, Ne.symm hb, if_neg hb]
        omega
      · simp [hmem, Ne.symm hb, if_neg hb]

theorem seenFrom_prefix (l : List Nat) :
    ∀ acc : List Nat, ∃ t : List Nat, seenFrom acc l = acc ++ t := by
  induction l with
  | nil => intro acc; exact ⟨[], by simp [seenFrom]⟩
  | cons a l ih =>
    intro acc
    by_cases hmem : a ∈ acc
    · obtain ⟨t, ht⟩ := ih acc
      exact ⟨t, by simpa [seenFrom, hmem] using ht⟩
    · obtain ⟨t, ht⟩ := ih (acc ++ [a])
      exact ⟨[a] ++ t, by simpa [seenFrom, hmem] using ht⟩

theorem seenFrom_length_le (l : List Nat) (acc : List Nat) :
    acc.length ≤ (seenFrom acc l).length := by
  obtain ⟨t, ht⟩ := seenFrom_prefix l acc
  simp [ht]

theorem seenFrom_append_list (l₁ l₂ acc : List Nat) :
    seenFrom acc (l₁ ++ l₂) = seenFrom (seenFrom acc l₁) l₂ := by
  induction l₁ generalizing acc with
  | nil => rfl
  | cons a l ih => simp [seenFrom, ih]

theorem mem_of_mem_seenFrom (x : Nat) (l : List Nat) :
    ∀ acc : List Nat, x ∈ seenFrom acc l → x ∈ acc ∨ x ∈ l := by
  induction l with
  | nil => intro acc h; exact Or.inl h
  | cons a l ih =>
    intro acc h
    simp only [seenFrom] at h
    rcases ih _ h with h' | h'
    · by_cases hmem : a ∈ acc
      · rw [if_pos hmem] at h'; exact Or.inl h'
      · rw [if_neg hmem] at h'
        rcases List.mem_append.mp h' with h'' | h''
        · exact Or.inl h''
        · simp only [List.mem_singleton] at h''
          exact Or.inr (h'' ▸ List.mem_cons_self _ _)
    · exact Or.inr (List.mem_cons_of_mem _ h')

theorem firstIdx_lt_length (a : Nat) :
    ∀ l : List Nat, a ∈ l → firstIdx a l < l.length := by
  intro l
  induction l with
  | nil => intro h; cases h
  | cons b l ih =>
    intro h
    by_cases hb : b = a
    · simp [firstIdx, hb]
    · have : a ∈ l := by
        rcases List.mem_cons.mp h with h' | h'
        · exact absurd h'.symm hb
        · exact h'
      simp only [firstIdx, if_neg hb, List.length_cons]
      exact Nat.succ_lt_succ (ih this)

theorem firstIdx_append_of_mem (a : Nat) :
    ∀ (l t : List Nat), a ∈ l → firstIdx a (l ++ t) = firstIdx a l := by
  intro l
  induction l with
  | nil => intro t h; cases h
  | cons b l ih =>
    intro t h
    by_cases hb : b = a
    · simp [firstIdx, hb]
    · have : a ∈ l := by
        rcases List.mem_cons.mp h with h' | h'
        · exact absurd h'.symm hb
        · exact h'
      simp only [List.cons_append, firstIdx, if_neg hb]
      exact congrArg (· + 1) (ih t this)

theorem firstIdx_append_self (a : Nat) :
    ∀ l : List Nat, a ∉ l → firstIdx a (l ++ [a]) = l.length := by
  intro l
  induction l with
  | nil => intro _; simp [firstIdx]
  | cons b l ih =>
    intro h
    have hb : b ≠ a := fun hba => h (hba ▸ List.mem_cons_self _ _)
    simp only [List.cons_append, firstIdx, if_neg hb, List.length_cons]
    exact congrArg (· + 1) (ih fun hm => h (List.mem_cons_of_mem _ hm))

/-- Invariant run of the slot table: starting from the state reached
after the identifiers of `acc` were seen (counter `acc.length`, mapping
`mapFrom 0 acc`), processing `l` succeeds as long as the distinct
identifiers fit the capacity, returns for each call the index of its
identifier's first occurrence, and ends in the state for the extended
seen-list. -/
theorem runDBL_go (N : Nat) :
    ∀ (l acc : List Nat), (seenFrom acc l).length ≤ N →
      runDBL N l ⟨acc.length, mapFrom 0 acc⟩ =
        .ok (l.map (fun dbid => firstIdx dbid (seenFrom acc l)),
             ⟨(seenFrom acc l).length, mapFrom 0 (seenFrom acc l)⟩) := by
  intro l
  induction l with
  | nil =>
    intro acc _
    simp [runDBL, seenFrom]
  | cons a l ih =>
    intro acc h
    by_cases hmem : a ∈ acc
    · have hseen : seenFrom acc (a :: l) = seenFrom acc l := by
        simp [seenFrom, hmem]
      rw [hseen] at h ⊢
      have hlk : lookupSlot a (mapFrom 0 acc) = some (firstIdx a acc) := by
        rw [lookupSlot_mapFrom]; simp [hmem]
      have hslot : firstIdx a acc < N :=
        lt_of_lt_of_le (firstIdx_lt_length a acc hmem)
          (le_trans (seenFrom_length_le l acc) h)
      have hfi : firstIdx a (seenFrom acc l) = firstIdx a acc := by
        obtain ⟨t, ht⟩ := seenFrom_prefix l acc
        rw [ht, firstIdx_append_of_mem a acc t hmem]
      simp only [runDBL, DatabaseLocal.for_my_database, hlk, if_pos hslot,
        ih acc h, List.map_cons, hfi]
    · have hseen : seenFrom acc (a :: l) = seenFrom (acc ++ [a]) l := by
        simp [seenFrom, hmem]
      rw [hseen] at h ⊢
      have hlen : acc.length < N := by
        have h1 := seenFrom_length_le l (acc ++ [a])
        simp only [List.length_append, List.length_singleton] at h1
        omega
      have hlk : lookupSlot a (mapFrom 0 acc) = none := by
        rw [lookupSlot_mapFrom]; simp [hmem]
      have hmapfull : (mapFrom 0 acc).length < N := by
        rw [mapFrom_length]; exact hlen
      have hins : mapFrom 0 acc ++ [(a, acc.length)] = mapFrom 0 (acc ++ [a]) := by
        rw [mapFrom_append]; simp
      have hfi : firstIdx a (seenFrom (acc ++ [a]) l) = acc.length := by
        obtain ⟨t, ht⟩ := seenFrom_prefix l (acc ++ [a])
        rw [ht, firstIdx_append_of_mem a (acc ++ [a]) t (by simp),
          firstIdx_append_self a acc hmem]
      have hlen1 : acc.length + 1 = (acc ++ [a]).length := by simp
      simp only [runDBL, DatabaseLocal.for_my_database, hlk, if_pos hmapfull,
        if_pos hlen, hins, hlen1, ih (acc ++ [a]) h, List.map_cons, hfi]

/-- The slot index returned for the first occurrence of `a` (position
`i`, `a` absent from the prefix) is the number of distinct identifiers
seen strictly before it. -/
theorem firstIdx_seen_first_occurrence (ids : List Nat) (i a : Nat)
    (hia : ids[i]? = some a) (hnot : a ∉ ids.take i) :
    firstIdx a (seen ids) = (seen (ids.take i)).length := by
  obtain ⟨hilt, hget⟩ := List.getElem?_eq_some_iff.mp hia
  have hdecomp : ids = ids.take i ++ a :: ids.drop (i + 1) := by
    conv_lhs => rw [← List.take_append_drop i ids]
    rw [List.drop_eq_getElem_cons hilt, hget]
  have hanot : a ∉ seen (ids.take i) := by
    intro hmem
    rcases mem_of_mem_seenFrom a (ids.take i) [] hmem with h' | h'
    · cases h'
    · exact hnot h'
  conv_lhs => rw [hdecomp]
  conv_rhs => rw [seen]
  rw [seen, seenFrom_append_list]
  show firstIdx a (seenFrom (seenFrom [] (ids.take i)) (a :: ids.drop (i + 1))) = _
  rw [show seenFrom (seenFrom [] (ids.take i)) (a :: ids.drop (i + 1)) =
      seenFrom (seenFrom [] (ids.take i) ++ [a]) (ids.drop (i + 1)) by
    simp [seenFrom, seen] at hanot ⊢
    rw [if_neg hanot]]
  obtain ⟨t, ht⟩ := seenFrom_prefix (ids.drop (i + 1)) (seenFrom [] (ids.take i) ++ [a])
  rw [ht, firstIdx_append_of_mem a _ t (by simp),
    firstIdx_append_self a _ (by simpa [seen] using hanot)]

/-- C9: for a sequence of at most `N` distinct database identifiers on
a table of capacity `N`, the run succeeds, the number of claimed slots
(the final counter) equals the number of distinct identifiers, every
later call for an identifier returns the same slot as its first call,
and each first occurrence claims the then-current next-free counter —
the number of distinct identifiers seen strictly before it — as its
slot index. -/
theorem C9_per_database_slots (N : Nat) (ids : List Nat)
    (h : (seen ids).length ≤ N) :
    ∃ (slots : List Nat) (d : DatabaseLocal N),
      runDBL N ids (DatabaseLocal.new N) = .ok (slots, d) ∧
      d.counter = (seen ids).length ∧
      (∀ i j : Nat, ids[i]? = ids[j]? → slots[i]? = slots[j]?) ∧
      (∀ i a : Nat, ids[i]? = some a → a ∉ ids.take i →
        slots[i]? = some ((seen (ids.take i)).length)) := by
  have hrun := runDBL_go N ids [] (by simpa [seen] using h)
  refine ⟨ids.map (fun dbid => firstIdx dbid (seen ids)),
    ⟨(seen ids).length, mapFrom 0 (seen ids)⟩, ?_, rfl, ?_, ?_⟩
  · simpa [DatabaseLocal.new, seen, mapFrom] using hrun
  · intro i j hij
    rw [List.getElem?_map, List.getElem?_map, hij]
  · intro i a hia hnot
    rw [List.getElem?_map, hia, Option.map_some',
      firstIdx_seen_first_occurrence ids i a hia hnot]

/-- Witness for C9 at the spec's concrete input: identifiers
`[A, B, A, C] = [10, 20, 10, 30]` on a table of capacity `8`. -/
theorem C9_per_database_slots_witness :
    (seen [10, 20, 10, 30]).length ≤ 8 ∧
    (∃ (slots : List Nat) (d : DatabaseLocal 8),
      runDBL 8 [10, 20, 10, 30] (DatabaseLocal.new 8) = .ok (slots, d) ∧
      d.counter = (seen [10, 20, 10, 30]).length ∧
      (∀ i j : Nat, [10, 20, 10, 30][i]? = [10, 20, 10, 30][j]? →
        slots[i]? = slots[j]?) ∧
      (∀ i a : Nat, [10, 20, 10, 30][i]? = some a →
        a ∉ [10, 20, 10, 30].take i →
        slots[i]? = some ((seen ([10, 20, 10, 30].take i)).length))) :=
  ⟨by decide, C9_per_database_slots 8 [10, 20, 10, 30] (by decide)⟩

end PgExtKit
